import Mathlib

/-!
Verification development for the xclim statistical downscaling and
bias-adjustment (sdba) engine.  The repository ships the sdba engine as
documentation notebooks; the engine itself (grouping, scaling and
quantile-mapping adjustments, detrending, the moving yearly window
transform) is modelled here from the specification, over exact rational
arithmetic, and the stated properties are settled against that model.
-/

/-- Modelled from the spec: the adjustment kind tag, additive or
multiplicative, used by detrending and by all adjustment objects.
The sdba implementation carrying it is missing from the repository. -/
inductive Kind where
  | additive
  | multiplicative
deriving DecidableEq, Repr

/-- Modelled from the spec: the error taxonomy of the sdba engine
(ConfigurationError and NotTrainedError are the two members exercised by
the claims).  The implementation is missing from the repository. -/
inductive SdbaError where
  | configurationError (msg : String)
  | notTrainedError
deriving DecidableEq, Repr

/-- Arithmetic mean of a list of rationals (empty list gives 0, the
junk value standing for the NaN a float implementation would emit). -/
def mean (xs : List ℚ) : ℚ := xs.sum / xs.length

/-- Modelled from the spec: removal of a fitted trend from a series.
The anomaly is series minus trend for the additive kind and series
divided by trend for the multiplicative kind, pointwise.  The detrending
module is missing from the repository. -/
def detrend (k : Kind) (s trend : List ℚ) : List ℚ :=
  List.zipWith (fun a t => match k with
    | Kind.additive => a - t
    | Kind.multiplicative => a / t) s trend

/-- Modelled from the spec: restoration of a fitted trend, the inverse
of detrend: plus the trend for the additive kind, times the trend for
the multiplicative kind.  The detrending module is missing from the
repository. -/
def retrend (k : Kind) (s trend : List ℚ) : List ℚ :=
  List.zipWith (fun a t => match k with
    | Kind.additive => a + t
    | Kind.multiplicative => a * t) s trend

/-- Modelled from the spec: the degree-one polynomial (linear
least-squares) trend fit used by PolyDetrend, evaluated at the sample
positions 0, 1, ..., n-1.  The detrending module is missing from the
repository. -/
def linFit (s : List ℚ) : List ℚ :=
  let n := s.length
  let xs : List ℚ := (List.range n).map (fun i => (i : ℚ))
  let xbar := mean xs
  let ybar := mean s
  let sxy := ((xs.zip s).map (fun p => (p.1 - xbar) * (p.2 - ybar))).sum
  let sxx := (xs.map (fun x => (x - xbar) ^ 2)).sum
  let b := sxy / sxx
  let a := ybar - b * xbar
  xs.map (fun x => a + b * x)

/-- C1 (amended): for every series s and every trend produced by a fit
(linear, polynomial or LOESS, hence any trend list of matching length),
retrending the detrended series restores s exactly, for the additive
kind unconditionally and for the multiplicative kind provided the
fitted trend is nonzero at every point. -/
theorem detrender_roundtrip_of_nonzero_trend (k : Kind) (s trend : List ℚ)
    (hlen : trend.length = s.length)
    (hk : k = Kind.multiplicative → ∀ t ∈ trend, t ≠ 0) :
    retrend k (detrend k s trend) trend = s := by
  induction s generalizing trend with
  | nil =>
    cases trend with
    | nil => rfl
    | cons t ts => simp at hlen
  | cons a rest ih =>
    cases trend with
    | nil => simp at hlen
    | cons t ts =>
      simp only [List.length_cons, Nat.succ.injEq] at hlen
      have hts : k = Kind.multiplicative → ∀ x ∈ ts, x ≠ 0 := by
        intro hkm x hx
        exact hk hkm x (List.mem_cons_of_mem t hx)
      cases k with
      | additive =>
        simp only [detrend, retrend, List.zipWith_cons_cons]
        rw [show a - t + t = a by ring]
        have := ih ts hlen hts
        simp only [detrend, retrend] at this
        rw [this]
      | multiplicative =>
        simp only [detrend, retrend, List.zipWith_cons_cons]
        have ht : t ≠ 0 := hk rfl t (List.mem_cons_self t ts)
        rw [div_mul_cancel₀ a ht]
        have := ih ts hlen hts
        simp only [detrend, retrend] at this
        rw [this]

/-- C1 witness: the round-trip theorem applied to the concrete series
[4, 6] with the concrete nonzero trend [2, 3] in multiplicative mode. -/
theorem detrender_roundtrip_witness :
    retrend Kind.multiplicative
      (detrend Kind.multiplicative [4, 6] [2, 3]) [2, 3] = [4, 6] :=
  detrender_roundtrip_of_nonzero_trend Kind.multiplicative [4, 6] [2, 3] rfl
    (by intro _ t ht; fin_cases ht <;> norm_num)

/-- C1 counterexample: for the series [1, 1, -2], the degree-one
polynomial fit is [3/2, 0, -3/2], which vanishes at the middle sample;
the multiplicative detrend-retrend round trip then yields [1, 0, -2],
not the original series, so the claim fails as stated (a float
implementation would produce NaN at that point). -/
theorem detrender_multiplicative_roundtrip_fails :
    retrend Kind.multiplicative
      (detrend Kind.multiplicative [1, 1, -2] (linFit [1, 1, -2]))
      (linFit [1, 1, -2]) ≠ [1, 1, -2] := by
  norm_num [linFit, mean, detrend, retrend, List.range_succ]

/-- Number of full moving windows of width W, starting S years apart,
that fit in a series of n years. -/
def numWindows (n W S : ℕ) : ℕ := if W ≤ n then (n - W) / S + 1 else 0

/-- Modelled from the spec: the windowing core of
construct_moving_yearly_window: cut the year sequence into overlapping
windows of W years whose starts are S years apart, keeping only full
windows.  The sdba processing module is missing from the repository. -/
def movingWindows (s : List α) (W S : ℕ) : List (List α) :=
  (List.range (numWindows s.length W S)).map (fun i => (s.drop (i * S)).take W)

/-- Modelled from the spec: the stacked series produced by
construct_moving_yearly_window, carrying the window and step widths as
attributes next to the window instances. -/
structure MovingWindowStack (α : Type) where
  window : ℕ
  step : ℕ
  instances : List (List α)
deriving DecidableEq, Repr

/-- A calendar has uniform year lengths when all year blocks of the
series have the same number of samples. -/
def UniformYearLengths (years : List (List α)) : Prop :=
  ∀ a ∈ years, ∀ b ∈ years, a.length = b.length

/-- Boolean uniform-calendar check: every year has the same number of
samples as the first one. -/
def uniformCheck (years : List (List α)) : Bool :=
  match years with
  | [] => true
  | y :: rest => rest.all (fun z => z.length == y.length)

/-- Modelled from the spec: construct_moving_yearly_window over a
series given as a list of year blocks: rejects non-uniform calendars
and step larger than window with a ConfigurationError, otherwise stacks
the overlapping windows.  The sdba processing module is missing from
the repository. -/
def construct_moving_yearly_window (years : List (List α)) (window step : ℕ) :
    Except SdbaError (MovingWindowStack (List α)) :=
  if ¬ uniformCheck years then
    Except.error (SdbaError.configurationError
      "the input calendar must have uniform year lengths")
  else if window < step then
    Except.error (SdbaError.configurationError
      "step must not be larger than window")
  else
    Except.ok ⟨window, step, movingWindows years window step⟩

/-- Modelled from the spec: unpack_moving_yearly_window keeps, from
each window instance, the step years that start (window - step) / 2
years into the window, and concatenates them.  The sdba processing
module is missing from the repository. -/
def unpack_moving_yearly_window (st : MovingWindowStack α) : List α :=
  (st.instances.map
    (fun w => (w.drop ((st.window - st.step) / 2)).take st.step)).flatten

theorem chunk_flatten {α : Type} (s : List α) (S : ℕ) :
    ∀ (k a : ℕ), a + S * k ≤ s.length →
      ((List.range k).map (fun i => (s.drop (a + i * S)).take S)).flatten
        = (s.drop a).take (S * k) := by
  intro k
  induction k with
  | zero => intro a _; simp
  | succ k ih =>
    intro a hle
    rw [List.range_succ_eq_map, List.map_cons, List.map_map, List.flatten_cons]
    have hmap : ((List.range k).map
        ((fun i => (s.drop (a + i * S)).take S) ∘ Nat.succ))
        = (List.range k).map (fun i => (s.drop ((a + S) + i * S)).take S) := by
      refine List.map_congr_left ?_
      intro i _
      simp only [Function.comp_apply]
      have : a + Nat.succ i * S = (a + S) + i * S := by
        rw [Nat.succ_mul]; omega
      rw [this]
    have hS1 : S * (k + 1) = S + S * k := by ring
    rw [hmap, ih (a + S) (by omega)]
    rw [hS1, List.take_add, List.drop_drop]
    simp [Nat.zero_mul, Nat.add_comm]

theorem take_window_drop {α : Type} (s : List α) (W S a : ℕ) (hSW : S ≤ W) :
    (((s.drop a).take W).drop ((W - S) / 2)).take S
      = (s.drop (a + (W - S) / 2)).take S := by
  rw [List.drop_take, List.take_take]
  have hmin : min S (W - (W - S) / 2) = S := by
    have := Nat.div_le_self (W - S) 2
    exact min_eq_left (by omega)
  rw [hmin, List.drop_drop]

/-- C2 (amended): unpacking a constructed moving yearly window stack
keeps the central step years of each window instance, so the result is
the original series with floor((W-S)/2) years removed at the start, and
when the span divides evenly into windows, ceil((W-S)/2) years removed
at the end: the extra missing year of an odd W-S lands on the end
side. -/
theorem unpack_keeps_central_step_years {α : Type}
    (years : List (List α)) (W S : ℕ) (st : MovingWindowStack (List α))
    (_hS : 0 < S) (hW : W ≤ years.length)
    (hok : construct_moving_yearly_window years W S = Except.ok st) :
    unpack_moving_yearly_window st
      = (years.drop ((W - S) / 2)).take (S * numWindows years.length W S)
    ∧ (S ∣ (years.length - W) →
        years.length
          = (W - S) / 2 + (unpack_moving_yearly_window st).length
            + (W - S + 1) / 2) := by
  unfold construct_moving_yearly_window at hok
  split_ifs at hok with h1 h2
  have hSW : S ≤ W := Nat.not_lt.mp h2
  injection hok with hok
  subst hok
  set n := years.length with hn
  have hnw : numWindows n W S = (n - W) / S + 1 := by
    simp [numWindows, hW]
  have hdivle : (n - W) / S * S ≤ n - W := Nat.div_mul_le_self (n - W) S
  have hmul : S * ((n - W) / S + 1) = (n - W) / S * S + S := by ring
  have hhalf : (W - S) / 2 ≤ W - S := Nat.div_le_self (W - S) 2
  have hbound : (W - S) / 2 + S * numWindows n W S ≤ n := by
    rw [hnw, hmul]; omega
  have hmain : unpack_moving_yearly_window
      ⟨W, S, movingWindows years W S⟩
      = (years.drop ((W - S) / 2)).take (S * numWindows n W S) := by
    unfold unpack_moving_yearly_window movingWindows
    simp only [List.map_map]
    have hmap : ((List.range (numWindows n W S)).map
        ((fun w => (w.drop ((W - S) / 2)).take S)
          ∘ (fun i => (years.drop (i * S)).take W)))
        = (List.range (numWindows n W S)).map
            (fun i => (years.drop ((W - S) / 2 + i * S)).take S) := by
      refine List.map_congr_left ?_
      intro i _
      simp only [Function.comp_apply]
      rw [take_window_drop years W S (i * S) hSW, Nat.add_comm (i * S)]
    rw [hmap, chunk_flatten years S (numWindows n W S) ((W - S) / 2) hbound]
  refine ⟨hmain, ?_⟩
  intro hdvd
  have hcancel : S * ((n - W) / S) = n - W := Nat.mul_div_cancel' hdvd
  have hlen : (unpack_moving_yearly_window
      ⟨W, S, movingWindows years W S⟩).length = S * numWindows n W S := by
    rw [hmain, List.length_take, List.length_drop]
    exact min_eq_left (by omega)
  rw [hlen, hnw]
  have hmul2 : S * ((n - W) / S + 1) = S * ((n - W) / S) + S := by ring
  rw [hmul2, hcancel]
  omega

/-- C2 witness: the unpack theorem applied to a concrete series of 5
one-sample years with window 3 and step 2: the unpacked series is the
first 4 years (floor(1/2) = 0 years missing at the start) and the one
extra missing year of the odd W - S lands at the end. -/
theorem unpack_keeps_central_step_years_witness :
    unpack_moving_yearly_window
      (⟨3, 2, movingWindows [[0], [1], [2], [3], [4]] 3 2⟩ :
        MovingWindowStack (List ℕ))
      = (([[0], [1], [2], [3], [4]] : List (List ℕ)).drop ((3 - 2) / 2)).take
          (2 * numWindows ([[0], [1], [2], [3], [4]] : List (List ℕ)).length 3 2)
    ∧ ([[0], [1], [2], [3], [4]] : List (List ℕ)).length
        = (3 - 2) / 2
          + (unpack_moving_yearly_window
              (⟨3, 2, movingWindows [[0], [1], [2], [3], [4]] 3 2⟩ :
                MovingWindowStack (List ℕ))).length
          + (3 - 2 + 1) / 2 :=
  ⟨(unpack_keeps_central_step_years [[0], [1], [2], [3], [4]] 3 2
      ⟨3, 2, movingWindows [[0], [1], [2], [3], [4]] 3 2⟩
      (by decide) (by decide) rfl).1,
    (unpack_keeps_central_step_years [[0], [1], [2], [3], [4]] 3 2
      ⟨3, 2, movingWindows [[0], [1], [2], [3], [4]] 3 2⟩
      (by decide) (by decide) rfl).2 (by decide)⟩

/-- C2 counterexample: on 5 uniform years with window 3 and step 2 the
constructed stack is [[0..2], [2..4]] and unpacking keeps years 0 to 3,
so nothing is missing at the start even though ceil((3-2)/2) = 1; the
claim, which puts the ceiling at the start and the floor at the end,
predicts years 1 to 4 and fails. -/
theorem unpack_start_count_counterexample :
    construct_moving_yearly_window ([[0], [1], [2], [3], [4]] : List (List ℕ)) 3 2
      = Except.ok ⟨3, 2, [[[0], [1], [2]], [[2], [3], [4]]]⟩
    ∧ unpack_moving_yearly_window
        (⟨3, 2, [[[0], [1], [2]], [[2], [3], [4]]]⟩ :
          MovingWindowStack (List ℕ))
        = [[0], [1], [2], [3]]
    ∧ ([[0], [1], [2], [3]] : List (List ℕ)) ≠ [[1], [2], [3], [4]] :=
  ⟨rfl, rfl, by decide⟩

/-- C5: constructing the moving window stack over a series of 30
uniform one-sample years with window 15 and step 2 succeeds and yields
exactly 8 window instances, the first covering the first 15 years and
the last covering the 15 years that start 14 years in. -/
theorem construct_30_years_window15_step2 :
    ∃ st : MovingWindowStack (List ℕ),
      construct_moving_yearly_window ((List.range 30).map (fun y => [y])) 15 2
        = Except.ok st
      ∧ st.instances.length = 8
      ∧ st.instances.head? = some (((List.range 30).map (fun y => [y])).take 15)
      ∧ st.instances.getLast?
          = some ((((List.range 30).map (fun y => [y])).drop 14).take 15) :=
  ⟨⟨15, 2, movingWindows ((List.range 30).map (fun y => [y])) 15 2⟩,
    rfl, by decide, by decide, by decide⟩

theorem uniformCheck_iff {α : Type} (years : List (List α)) :
    uniformCheck years = true ↔ UniformYearLengths years := by
  cases years with
  | nil =>
    simp only [uniformCheck, UniformYearLengths, true_iff]
    intro a ha
    simp at ha
  | cons y rest =>
    simp only [uniformCheck, List.all_eq_true, beq_iff_eq, UniformYearLengths]
    constructor
    · intro h a ha b hb
      have key : ∀ c ∈ y :: rest, c.length = y.length := by
        intro c hc
        rcases List.mem_cons.mp hc with rfl | hc
        · rfl
        · exact h c hc
      rw [key a ha, key b hb]
    · intro h z hz
      exact h z (List.mem_cons_of_mem y hz) y (List.mem_cons_self y rest)

/-- C6: constructing a moving yearly window succeeds exactly when the
calendar has uniform year lengths and the step does not exceed the
window; in every other case it fails with a ConfigurationError. -/
theorem construct_success_and_configuration_errors {α : Type}
    (years : List (List α)) (W S : ℕ) :
    ((∃ st, construct_moving_yearly_window years W S = Except.ok st)
        ↔ (UniformYearLengths years ∧ S ≤ W))
    ∧ (¬ (UniformYearLengths years ∧ S ≤ W) →
        ∃ msg, construct_moving_yearly_window years W S
          = Except.error (SdbaError.configurationError msg)) := by
  by_cases hu : uniformCheck years = true
  · have hu' : UniformYearLengths years := (uniformCheck_iff years).mp hu
    by_cases hsw : S ≤ W
    · have hnlt : ¬ (W < S) := Nat.not_lt.mpr hsw
      simp only [construct_moving_yearly_window, hu, not_true,
        if_false, hnlt, if_neg]
      constructor
      · constructor
        · intro _; exact ⟨hu', hsw⟩
        · intro _; exact ⟨_, rfl⟩
      · intro hc; exact absurd ⟨hu', hsw⟩ hc
    · have hlt : W < S := Nat.not_le.mp hsw
      simp only [construct_moving_yearly_window, hu, not_true,
        if_false, hlt, if_true]
      constructor
      · constructor
        · rintro ⟨st, hst⟩; cases hst
        · rintro ⟨_, h⟩; exact absurd h hsw
      · intro _; exact ⟨_, rfl⟩
  · have hu' : ¬ UniformYearLengths years := fun h =>
      hu ((uniformCheck_iff years).mpr h)
    simp only [construct_moving_yearly_window, hu, not_false_iff, if_true]
    constructor
    · constructor
      · rintro ⟨st, hst⟩; cases hst
      · rintro ⟨h, _⟩; exact absurd h hu'
    · intro _; exact ⟨_, rfl⟩

/-- C6 witness: the success-and-error theorem applied to a concrete
uniform two-year calendar with window 2 and step 1 (success side), and
its error side discharged at a concrete non-uniform calendar. -/
theorem construct_success_and_configuration_errors_witness :
    (∃ st, construct_moving_yearly_window ([[0], [1]] : List (List ℕ)) 2 1
      = Except.ok st)
    ∧ (∃ msg, construct_moving_yearly_window ([[0], [1, 2]] : List (List ℕ)) 2 1
      = Except.error (SdbaError.configurationError msg)) := by
  constructor
  · exact (construct_success_and_configuration_errors
      ([[0], [1]] : List (List ℕ)) 2 1).1.mpr
      ⟨by intro a ha b hb; fin_cases ha <;> fin_cases hb <;> rfl, by omega⟩
  · exact (construct_success_and_configuration_errors
      ([[0], [1, 2]] : List (List ℕ)) 2 1).2
      (by
        rintro ⟨h, _⟩
        have := h [0] (by simp) [1, 2] (by simp)
        simp at this)

/-- Circular distance between two labels in a periodic label space of
period P (wraparound at the period boundary). -/
def circularDist (P a b : ℕ) : ℕ :=
  min ((a - b) + (b - a)) (P - ((a - b) + (b - a)))

/-- Modelled from the spec: the Grouper, owning a grouping key mapping
a timestamp to a discrete label in a periodic label space, and a window
width in key units.  The sdba base module is missing from the
repository. -/
structure Grouper where
  key : ℕ → ℕ
  period : ℕ
  window : ℕ

/-- Modelled from the spec: group membership under a Grouper: the
timestamps whose label lies within half the window width of the label
of t, with circular wraparound at the period boundary. -/
def Grouper.members (G : Grouper) (ts : List ℕ) (t : ℕ) : List ℕ :=
  ts.filter (fun u => circularDist G.period (G.key u) (G.key t) ≤ G.window / 2)

/-- C8: with window 0, the group membership of a timestamp is exactly
the set of timestamps sharing its group label, and timestamps with
different labels have disjoint memberships: an exact partition. -/
theorem grouper_window0_exact_partition (G : Grouper) (ts : List ℕ)
    (t t' : ℕ) (hw : G.window = 0) (hP : ∀ x, G.key x < G.period) :
    (∀ u, u ∈ G.members ts t ↔ u ∈ ts ∧ G.key u = G.key t)
    ∧ (G.key t ≠ G.key t' →
        ∀ u, ¬ (u ∈ G.members ts t ∧ u ∈ G.members ts t')) := by
  have hmem : ∀ (v u : ℕ),
      u ∈ G.members ts v ↔ u ∈ ts ∧ G.key u = G.key v := by
    intro v u
    simp only [Grouper.members, List.mem_filter, decide_eq_true_eq, hw]
    refine and_congr_right (fun _ => ?_)
    unfold circularDist
    have hu := hP u
    have hv := hP v
    omega
  refine ⟨hmem t, ?_⟩
  intro hne u ⟨h1, h2⟩
  have e1 := ((hmem t u).mp h1).2
  have e2 := ((hmem t' u).mp h2).2
  exact hne (e1 ▸ e2)

/-- C8 witness: the exact-partition theorem applied to the key taking a
timestamp modulo 3, with window 0, on the concrete timestamps 0..5. -/
theorem grouper_window0_exact_partition_witness :
    (4 ∈ Grouper.members ⟨fun x => x % 3, 3, 0⟩ [0, 1, 2, 3, 4, 5] 1
      ↔ 4 ∈ [0, 1, 2, 3, 4, 5] ∧ 4 % 3 = 1 % 3)
    ∧ ¬ (4 ∈ Grouper.members ⟨fun x => x % 3, 3, 0⟩ [0, 1, 2, 3, 4, 5] 1
          ∧ 4 ∈ Grouper.members ⟨fun x => x % 3, 3, 0⟩ [0, 1, 2, 3, 4, 5] 2) :=
  ⟨(grouper_window0_exact_partition ⟨fun x => x % 3, 3, 0⟩ [0, 1, 2, 3, 4, 5] 1 2
      rfl (fun x => Nat.mod_lt x (by norm_num))).1 4,
    (grouper_window0_exact_partition ⟨fun x => x % 3, 3, 0⟩ [0, 1, 2, 3, 4, 5] 1 2
      rfl (fun x => Nat.mod_lt x (by norm_num))).2 (by decide) 4⟩

/-- Values of the series s whose index carries the group label g under
the grouping key lab (the slice of s belonging to group g). -/
def groupVals (lab : ℕ → ℕ) (s : List ℚ) (g : ℕ) : List ℚ :=
  ((List.range s.length).filter (fun i => lab i == g)).map (fun i => s.getD i 0)

/-- Application of an adjustment factor to one value: added for the
additive kind, multiplied for the multiplicative kind. -/
def applyFactor (k : Kind) (v f : ℚ) : ℚ :=
  match k with
  | Kind.additive => v + f
  | Kind.multiplicative => v * f

/-- Modelled from the spec: the per-group Scaling factor: difference of
group means for the additive kind, ratio for the multiplicative kind.
The sdba adjustment module is missing from the repository. -/
def scalingFactor (k : Kind) (lab : ℕ → ℕ) (ref hist : List ℚ) (g : ℕ) : ℚ :=
  match k with
  | Kind.additive => mean (groupVals lab ref g) - mean (groupVals lab hist g)
  | Kind.multiplicative => mean (groupVals lab ref g) / mean (groupVals lab hist g)

/-- Modelled from the spec: Scaling training: one factor per distinct
group label occurring over the training period, stored as a mapping
from label to factor.  The sdba adjustment module is missing from the
repository. -/
def Scaling.train (k : Kind) (lab : ℕ → ℕ) (ref hist : List ℚ) :
    List (ℕ × ℚ) :=
  (((List.range hist.length).map lab).dedup).map
    (fun g => (g, scalingFactor k lab ref hist g))

/-- Modelled from the spec: Scaling adjustment: every point of sim
receives the trained factor of its group label.  The sdba adjustment
module is missing from the repository. -/
def Scaling.adjust (k : Kind) (lab : ℕ → ℕ) (m : List (ℕ × ℚ))
    (sim : List ℚ) : List ℚ :=
  (List.range sim.length).map
    (fun i => applyFactor k (sim.getD i 0) ((m.lookup (lab i)).getD 0))

theorem lookup_graph (f : ℕ → ℚ) (l : List ℕ) (g : ℕ) (hg : g ∈ l) :
    (l.map (fun x => (x, f x))).lookup g = some (f g) := by
  induction l with
  | nil => cases hg
  | cons a rest ih =>
    by_cases hga : g = a
    · subst hga
      simp [List.lookup]
    · have hg2 : g ∈ rest := by
        rcases List.mem_cons.mp hg with h | h
        · exact absurd h hga
        · exact h
      have hbeq : (g == a) = false := beq_eq_false_iff_ne.mpr hga
      simp only [List.map_cons, List.lookup, hbeq]
      exact ih hg2

/-- C3: for Scaling trained with the additive kind, the adjusted value
at every simulation point of group g is exactly the simulated value
plus the difference between the mean of ref over g and the mean of hist
over g, for every group label seen during training. -/
theorem scaling_additive_adjust_pointwise (lab : ℕ → ℕ)
    (ref hist sim : List ℚ) (i : ℕ) (hi : i < sim.length)
    (hg : lab i ∈ (List.range hist.length).map lab) :
    (Scaling.adjust Kind.additive lab
        (Scaling.train Kind.additive lab ref hist) sim)[i]?
      = some (sim.getD i 0
          + (mean (groupVals lab ref (lab i))
              - mean (groupVals lab hist (lab i)))) := by
  unfold Scaling.adjust
  rw [List.getElem?_map, List.getElem?_range hi]
  have hdedup : lab i ∈ ((List.range hist.length).map lab).dedup :=
    List.mem_dedup.mpr hg
  have hlook : (Scaling.train Kind.additive lab ref hist).lookup (lab i)
      = some (scalingFactor Kind.additive lab ref hist (lab i)) :=
    lookup_graph (scalingFactor Kind.additive lab ref hist)
      (((List.range hist.length).map lab).dedup) (lab i) hdedup
  simp only [Option.map_some', hlook, Option.getD_some, applyFactor,
    scalingFactor]

/-- C3 witness: the pointwise Scaling theorem at the key taking the
index modulo 2, ref [1, 2], hist [3, 5], sim [10, 20, 30], point 2:
the adjusted value is 30 + (1 - 3) = 28. -/
theorem scaling_additive_adjust_pointwise_witness :
    (Scaling.adjust Kind.additive (fun x => x % 2)
        (Scaling.train Kind.additive (fun x => x % 2) [1, 2] [3, 5])
        [10, 20, 30])[2]?
      = some (([10, 20, 30] : List ℚ).getD 2 0
          + (mean (groupVals (fun x => x % 2) [1, 2] (2 % 2))
              - mean (groupVals (fun x => x % 2) [3, 5] (2 % 2)))) :=
  scaling_additive_adjust_pointwise (fun x => x % 2) [1, 2] [3, 5]
    [10, 20, 30] 2 (by norm_num) (by decide)

/-- Modelled from the spec: the empirical quantile of a sample, with
linear interpolation between order statistics on the sorted sample (an
empty sample gives 0, the junk value standing for NaN).  The sdba
utilities module is missing from the repository. -/
def quantile (xs : List ℚ) (q : ℚ) : ℚ :=
  let ys := xs.insertionSort (· ≤ ·)
  let n := ys.length
  if n = 0 then 0
  else
    let h : ℚ := q * ((n : ℚ) - 1)
    let i : ℕ := (⌊h⌋).toNat
    let lo := ys.getD i 0
    let hi := ys.getD (i + 1) lo
    lo + (h - (⌊h⌋ : ℚ)) * (hi - lo)

/-- Quantile-wise combination of reference and historical quantiles
into an adjustment factor: difference for the additive kind, ratio for
the multiplicative kind. -/
def afFactor (k : Kind) (r h : ℚ) : ℚ :=
  match k with
  | Kind.additive => r - h
  | Kind.multiplicative => r / h

/-- Modelled from the spec: the training step shared by
EmpiricalQuantileMapping and QuantileDeltaMapping: for each group label
seen over the training period and each requested quantile, the factor
combining the group quantile of ref with the group quantile of hist.
The sdba adjustment module is missing from the repository. -/
def trainQuantileFactors (k : Kind) (lab : ℕ → ℕ) (qs : List ℚ)
    (ref hist : List ℚ) : List (ℕ × List ℚ) :=
  (((List.range hist.length).map lab).dedup).map
    (fun g => (g, qs.map (fun q =>
      afFactor k (quantile (groupVals lab ref g) q)
        (quantile (groupVals lab hist g) q))))

/-- C4 (amended): training EQM or QDM on identical series (ref equal to
hist) yields, for every group and every quantile, the zero factor in
additive mode unconditionally, and the unit factor in multiplicative
mode provided the group quantiles of hist are nonzero. -/
theorem eqm_qdm_identity_training (k : Kind) (lab : ℕ → ℕ) (qs : List ℚ)
    (hist : List ℚ) (g : ℕ) (afs : List ℚ)
    (hmem : (g, afs) ∈ trainQuantileFactors k lab qs hist hist) :
    (k = Kind.additive → ∀ a ∈ afs, a = 0)
    ∧ (k = Kind.multiplicative →
        (∀ q ∈ qs, quantile (groupVals lab hist g) q ≠ 0) →
        ∀ a ∈ afs, a = 1) := by
  unfold trainQuantileFactors at hmem
  rw [List.mem_map] at hmem
  obtain ⟨g', _, heq⟩ := hmem
  have hfst := congrArg Prod.fst heq
  have hsnd := congrArg Prod.snd heq
  simp only at hfst hsnd
  subst hfst
  subst hsnd
  constructor
  · rintro rfl a ha
    rw [List.mem_map] at ha
    obtain ⟨q, _, hq⟩ := ha
    simp only [afFactor] at hq
    rw [← hq]
    exact sub_self _
  · rintro rfl hnz a ha
    rw [List.mem_map] at ha
    obtain ⟨q, hqmem, hq⟩ := ha
    simp only [afFactor] at hq
    rw [← hq]
    exact div_self (hnz q hqmem)

/-- C4 witness: the identity-training theorem applied to the concrete
whole-series grouping with hist = [2] and the single quantile 1/2: the
trained additive factor is zero. -/
theorem eqm_qdm_identity_training_witness :
    afFactor Kind.additive (quantile (groupVals (fun _ => 0) [2] 0) (1 / 2))
      (quantile (groupVals (fun _ => 0) [2] 0) (1 / 2)) = 0 :=
  (eqm_qdm_identity_training Kind.additive (fun _ => 0) [1 / 2] [2] 0
      [afFactor Kind.additive (quantile (groupVals (fun _ => 0) [2] 0) (1 / 2))
        (quantile (groupVals (fun _ => 0) [2] 0) (1 / 2))]
      (by simp [trainQuantileFactors, List.range_succ])).1 rfl
    (afFactor Kind.additive (quantile (groupVals (fun _ => 0) [2] 0) (1 / 2))
      (quantile (groupVals (fun _ => 0) [2] 0) (1 / 2)))
    (List.mem_singleton_self _)

/-- C4 counterexample: training in multiplicative mode on the identical
series ref = hist = [0] (whole-series group, single quantile 1/2)
produces the factor 0/0, which the rational model evaluates to 0 and a
float implementation to NaN; in either case the factor is not the
multiplicative identity 1, so the claim fails as stated. -/
theorem eqm_qdm_identity_training_multiplicative_fails :
    trainQuantileFactors Kind.multiplicative (fun _ => 0) [1 / 2] [0] [0]
      = [(0, [0])]
    ∧ ((0 : ℚ) ≠ 1) := by
  constructor
  · norm_num [trainQuantileFactors, groupVals, quantile, afFactor,
      List.insertionSort, List.orderedInsert, List.range_succ]
  · norm_num

/-- Modelled from the spec: the grouping keys recognized by the
adjustment objects (whole series, day of year, month), over daily
timestamps of a noleap calendar. -/
inductive GroupName where
  | wholeSeries
  | dayofyear
  | month
deriving DecidableEq, Repr

/-- Cumulative month boundaries of the noleap calendar. -/
def monthEnds : List ℕ :=
  [31, 59, 90, 120, 151, 181, 212, 243, 273, 304, 334, 365]

/-- Grouping key function of a named group over daily timestamps. -/
def GroupName.keyFn : GroupName → ℕ → ℕ
  | GroupName.wholeSeries => fun _ => 0
  | GroupName.dayofyear => fun t => t % 365
  | GroupName.month => fun t => monthEnds.findIdx (fun m => decide (t % 365 < m))

/-- Numeric code of an adjustment kind inside serialized parameters. -/
def Kind.code : Kind → ℕ
  | Kind.additive => 0
  | Kind.multiplicative => 1

/-- Decoding of an adjustment kind from its numeric code. -/
def kindOfCode (c : ℕ) : Option Kind :=
  if c = 0 then some Kind.additive
  else if c = 1 then some Kind.multiplicative
  else none

/-- Numeric code of a group name inside serialized parameters. -/
def GroupName.code : GroupName → ℕ
  | GroupName.wholeSeries => 0
  | GroupName.dayofyear => 1
  | GroupName.month => 2

/-- Decoding of a group name from its numeric code. -/
def groupOfCode (c : ℕ) : Option GroupName :=
  if c = 0 then some GroupName.wholeSeries
  else if c = 1 then some GroupName.dayofyear
  else if c = 2 then some GroupName.month
  else none

/-- Modelled from the spec: the configuration parameters of a
QuantileDeltaMapping adjustment: quantile count, kind and grouping. -/
structure AdjParams where
  nquantiles : ℕ
  kind : Kind
  group : GroupName
deriving DecidableEq, Repr

/-- Modelled from the spec: serialization of the parameters into the
adj_params attribute stored on the training dataset. -/
def serializeParams (p : AdjParams) : List (String × ℕ) :=
  [("nquantiles", p.nquantiles), ("kind", p.kind.code),
    ("group", p.group.code)]

/-- Modelled from the spec: parsing the adj_params attribute back into
parameters when an Adjustment object is rebuilt from a dataset. -/
def parseParams (attrs : List (String × ℕ)) : Option AdjParams :=
  match attrs.lookup "nquantiles", attrs.lookup "kind",
      attrs.lookup "group" with
  | some n, some kc, some gc =>
    match kindOfCode kc, groupOfCode gc with
    | some k, some g => some ⟨n, k, g⟩
    | _, _ => none
  | _, _, _ => none

/-- Modelled from the spec: the training dataset of an adjustment
object: the per-group per-quantile adjustment factors plus the
serialized parameters carried as the adj_params attribute. -/
structure TrainDS where
  af : List (ℕ × List ℚ)
  adj_params : List (String × ℕ)
deriving DecidableEq, Repr

/-- The quantile nodes used for a given quantile count: midpoints of n
equal probability bins. -/
def quantileNodes (n : ℕ) : List ℚ :=
  (List.range n).map (fun i => (2 * (i : ℚ) + 1) / (2 * (n : ℚ)))

/-- Modelled from the spec: the training dataset produced by training a
QuantileDeltaMapping on (ref, hist). -/
def mkTrainDS (p : AdjParams) (ref hist : List ℚ) : TrainDS :=
  ⟨trainQuantileFactors p.kind (p.group.keyFn)
      (quantileNodes p.nquantiles) ref hist,
    serializeParams p⟩

/-- Modelled from the spec: a QuantileDeltaMapping adjustment object:
its configuration parameters and its training dataset, absent while the
object is untrained.  The sdba adjustment module is missing from the
repository. -/
structure QuantileDeltaMapping where
  params : AdjParams
  ds : Option TrainDS
deriving DecidableEq, Repr

/-- Modelled from the spec: training attaches the training dataset to
the object (the untrained-to-trained transition). -/
def QuantileDeltaMapping.train (A : QuantileDeltaMapping)
    (ref hist : List ℚ) : QuantileDeltaMapping :=
  ⟨A.params, some (mkTrainDS A.params ref hist)⟩

/-- Empirical CDF rank of a value within its group sample. -/
def ecdfRank (xs : List ℚ) (v : ℚ) : ℚ :=
  ((xs.filter (fun x => decide (x ≤ v))).length : ℚ) / (xs.length : ℚ)

/-- Piecewise-linear interpolation through a list of nodes, with
constant extrapolation outside the node range. -/
def interp1 : List (ℚ × ℚ) → ℚ → ℚ
  | [], _ => 0
  | [(_, a)], _ => a
  | (x1, a1) :: (x2, a2) :: rest, r =>
    if r ≤ x1 then a1
    else if r ≤ x2 then a1 + (r - x1) / (x2 - x1) * (a2 - a1)
    else interp1 ((x2, a2) :: rest) r

/-- Modelled from the spec: the QuantileDeltaMapping adjustment step on
a training dataset: each simulated point is adjusted by the factor
interpolated at its own quantile rank within its group of sim. -/
def applyQdmDS (p : AdjParams) (d : TrainDS) (sim : List ℚ) : List ℚ :=
  (List.range sim.length).map (fun t =>
    let g := p.group.keyFn t
    let v := sim.getD t 0
    let r := ecdfRank (groupVals (p.group.keyFn) sim g) v
    applyFactor p.kind v
      (interp1 ((quantileNodes p.nquantiles).zip ((d.af.lookup g).getD [])) r))

/-- Modelled from the spec: adjusting with an untrained object fails
with NotTrainedError; a trained object applies its training dataset. -/
def QuantileDeltaMapping.adjust (A : QuantileDeltaMapping)
    (sim : List ℚ) : Except SdbaError (List ℚ) :=
  match A.ds with
  | none => Except.error SdbaError.notTrainedError
  | some d => Except.ok (applyQdmDS A.params d sim)

/-- Modelled from the spec: rebuilding an adjustment object from a
training dataset by parsing the adj_params attribute. -/
def QuantileDeltaMapping.from_dataset (d : TrainDS) :
    Option QuantileDeltaMapping :=
  (parseParams d.adj_params).map (fun p => ⟨p, some d⟩)

/-- C7: an untrained adjustment object rejects adjust with
NotTrainedError; after one train the object carries its training
dataset and adjust succeeds, and succeeds again on another series (the
object is unchanged by adjust, so the trained state persists). -/
theorem adjust_requires_training (A : QuantileDeltaMapping)
    (ref hist sim sim2 : List ℚ) (hun : A.ds = none) :
    A.adjust sim = Except.error SdbaError.notTrainedError
    ∧ (A.train ref hist).ds = some (mkTrainDS A.params ref hist)
    ∧ (A.train ref hist).adjust sim
        = Except.ok (applyQdmDS A.params (mkTrainDS A.params ref hist) sim)
    ∧ (A.train ref hist).adjust sim2
        = Except.ok (applyQdmDS A.params (mkTrainDS A.params ref hist) sim2) := by
  refine ⟨?_, rfl, rfl, rfl⟩
  unfold QuantileDeltaMapping.adjust
  rw [hun]

/-- C7 witness: the training state machine applied to a concrete
untrained object with nquantiles 2, additive kind and whole-series
grouping, on concrete ref, hist and two simulation series. -/
theorem adjust_requires_training_witness :
    QuantileDeltaMapping.adjust
        ⟨⟨2, Kind.additive, GroupName.wholeSeries⟩, none⟩ [7]
      = Except.error SdbaError.notTrainedError
    ∧ (QuantileDeltaMapping.train
        ⟨⟨2, Kind.additive, GroupName.wholeSeries⟩, none⟩ [1, 2] [3, 4]).ds
      = some (mkTrainDS ⟨2, Kind.additive, GroupName.wholeSeries⟩ [1, 2] [3, 4])
    ∧ (QuantileDeltaMapping.train
        ⟨⟨2, Kind.additive, GroupName.wholeSeries⟩, none⟩ [1, 2] [3, 4]).adjust [7]
      = Except.ok (applyQdmDS ⟨2, Kind.additive, GroupName.wholeSeries⟩
          (mkTrainDS ⟨2, Kind.additive, GroupName.wholeSeries⟩ [1, 2] [3, 4]) [7])
    ∧ (QuantileDeltaMapping.train
        ⟨⟨2, Kind.additive, GroupName.wholeSeries⟩, none⟩ [1, 2] [3, 4]).adjust [8, 9]
      = Except.ok (applyQdmDS ⟨2, Kind.additive, GroupName.wholeSeries⟩
          (mkTrainDS ⟨2, Kind.additive, GroupName.wholeSeries⟩ [1, 2] [3, 4]) [8, 9]) :=
  adjust_requires_training
    ⟨⟨2, Kind.additive, GroupName.wholeSeries⟩, none⟩ [1, 2] [3, 4] [7] [8, 9] rfl

/-- C10: reconstructing a QuantileDeltaMapping from the training
dataset produced by its own train succeeds, and the rebuilt object
adjusts every simulation series exactly like the original trained
object. -/
theorem from_dataset_adjust_roundtrip (p : AdjParams) (ref hist sim : List ℚ) :
    ∃ A2 : QuantileDeltaMapping,
      QuantileDeltaMapping.from_dataset
          ((QuantileDeltaMapping.train ⟨p, none⟩ ref hist).ds.getD
            ⟨[], []⟩)
        = some A2
      ∧ A2.adjust sim
          = (QuantileDeltaMapping.train ⟨p, none⟩ ref hist).adjust sim := by
  have hparse : parseParams (serializeParams p) = some p := by
    obtain ⟨n, k, g⟩ := p
    cases k <;> cases g <;>
      simp [parseParams, serializeParams, List.lookup, Kind.code,
        GroupName.code, kindOfCode, groupOfCode]
  refine ⟨⟨p, some (mkTrainDS p ref hist)⟩, ?_, rfl⟩
  unfold QuantileDeltaMapping.from_dataset QuantileDeltaMapping.train
  simp only [Option.getD_some]
  rw [show (mkTrainDS p ref hist).adj_params = serializeParams p from rfl,
    hparse]
  rfl
